import Mathlib

/-!
Verification of the "now playing" resolution engine of `script.js`
(Radio MNS site). The definitions below are a shallow embedding of the
functions `toMinutes`, the range/fallback passes of
`computeNowFromScheduleDOM`, `fmt`, `escapeHtml` and the entry point
`loadCurrentProgramFromPrograma`, translated statement by statement from
the JavaScript source. DOM access is abstracted: a schedule-day element
is a `DayNode` carrying its `data-day`/`id` attributes and the already
extracted `Item` records (time text and title text).
-/

namespace RadioMNS

/-- The regex class `\d`, the ASCII digits 48-57. -/
def isDigitChar (c : Char) : Bool :=
  48 ≤ c.toNat ∧ c.toNat ≤ 57

/-- Numeric value of an ASCII digit character (`parseInt` on one digit). -/
def digitVal (c : Char) : Nat := c.toNat - 48

/-- Match of the regex token `\d{1,2}:\d{2}` at the head of the character
list, returning hour value, minute value and the remaining characters.
The greedy two-digit-hour alternative is tried first; if it fails the
engine backtracks to the one-digit hour, exactly as a JS regex engine
does. (When the two-digit alternative consumes `d1 d2 : m1 m2`, the
one-digit alternative would need `:` where the digit `d2` stands, so the
two alternatives never both succeed at one position.) -/
def matchHM1 (d1 : Char) : List Char → Option (Nat × Nat × List Char)
  | ':' :: m1 :: m2 :: rest2 =>
    if isDigitChar m1 ∧ isDigitChar m2 then
      some (digitVal d1, digitVal m1 * 10 + digitVal m2, rest2)
    else none
  | _ => none

def matchHMAt : List Char → Option (Nat × Nat × List Char)
  | [] => none
  | d1 :: rest =>
    if isDigitChar d1 then
      match rest with
      | d2 :: ':' :: m1 :: m2 :: rest2 =>
        if isDigitChar d2 ∧ isDigitChar m1 ∧ isDigitChar m2 then
          some (digitVal d1 * 10 + digitVal d2,
                digitVal m1 * 10 + digitVal m2, rest2)
        else matchHM1 d1 rest
      | _ => matchHM1 d1 rest
    else none

/-- Leftmost match of `(\d{1,2}):(\d{2})` in a character list: the regex
engine tries each start position from the left. -/
def findHM : List Char → Option (Nat × Nat)
  | [] => none
  | c :: rest =>
    match matchHMAt (c :: rest) with
    | some (h, m, _) => some (h, m)
    | none => findHM rest

/-- Embeds `toMinutes` from `script.js`: first `(\d{1,2}):(\d{2})` match in the
string, hours times 60 plus minutes; `null` (here `none`) when the
string is empty or has no match. -/
def toMinutes (hm : String) : Option Nat :=
  match findHM hm.data with
  | some (h, m) => some (h * 60 + m)
  | none => none

/-- Model of `\s*`: skip whitespace greedily. (JS `\s` also covers rarer Unicode
spaces; the common ASCII whitespace is modelled. The characters after
`\s*` in the range regex are a dash or a digit, never whitespace, so
greedy skipping is exact.) -/
def skipWs : List Char → List Char
  | [] => []
  | c :: rest => if c.isWhitespace then skipWs rest else c :: rest

/-- Match of `(\d{1,2}:\d{2})\s*[–\-]\s*(\d{1,2}:\d{2})` at the head of
the list, returning the two captures already converted by `toMinutes`
(the code runs `toMinutes` on each capture; on a capture `h:mm` that is
h*60+mm). -/
def matchRangeAt (cs : List Char) : Option (Nat × Nat) :=
  match matchHMAt cs with
  | none => none
  | some (h1, m1, rest) =>
    match skipWs rest with
    | [] => none
    | d :: rest2 =>
      if d = '–' ∨ d = '-' then
        match matchHMAt (skipWs rest2) with
        | some (h2, m2, _) => some (h1 * 60 + m1, h2 * 60 + m2)
        | none => none
      else none

/-- Leftmost match of the range regex in a character list. -/
def findRange : List Char → Option (Nat × Nat)
  | [] => none
  | c :: rest =>
    match matchRangeAt (c :: rest) with
    | some r => some r
    | none => findRange rest

/-- Embeds `it.timeText.match(/(\d{1,2}:\d{2})\s*[–\-]\s*(\d{1,2}:\d{2})/)`
followed by `toMinutes` on both captures. -/
def parseRangeMinutes (t : String) : Option (Nat × Nat) :=
  findRange t.data

/-- One extracted program entry: raw time text and title text. -/
structure Item where
  timeText : String
  titleText : String
deriving Repr, DecidableEq

/-- JS `it.titleText || 'Onbekend'`: the empty string is falsy. -/
def orOnbekend (t : String) : String :=
  if t = "" then "Onbekend" else t

/-- The `found` record `\x7b title, start, end \x7d`; `end` is `null`
(`none`) for fallback matches. -/
structure Found where
  title : String
  start : Nat
  stop : Option Nat
deriving Repr, DecidableEq

/-- The range pass (`// try ranges first`): scan items in order, parse
the range regex, and on the first interval containing `nowMinutes`
(half-open, with midnight wrap when start > end) stop with that entry. -/
def rangePass (items : List Item) (nowMinutes : Nat) : Option Found :=
  match items with
  | [] => none
  | it :: rest =>
    match parseRangeMinutes it.timeText with
    | some (s, e) =>
      if s ≤ e then
        if nowMinutes ≥ s ∧ nowMinutes < e then
          some ⟨orOnbekend it.titleText, s, some e⟩
        else rangePass rest nowMinutes
      else
        if nowMinutes ≥ s ∨ nowMinutes < e then
          some ⟨orOnbekend it.titleText, s, some e⟩
        else rangePass rest nowMinutes
    | none => rangePass rest nowMinutes

/-- The `starts` array of the fallback pass: title (defaulted) and first
`(\d{1,2}:\d{2})` match converted to minutes, entries without a parseable
start filtered out. -/
def startsOf (items : List Item) : List (String × Nat) :=
  items.filterMap (fun it =>
    match toMinutes it.timeText with
    | some v => some (orOnbekend it.titleText, v)
    | none => none)

/-- The loop `for (const p of starts) if (p.start <= nowMinutes) cand = p;
else break;` with accumulator `cand`. -/
def scanCand : List (String × Nat) → Nat → Option (String × Nat) →
    Option (String × Nat)
  | [], _, cand => cand
  | p :: rest, now, cand =>
    if p.2 ≤ now then scanCand rest now (some p) else cand

/-- The fallback pass: sort the starts ascending (JS `Array.sort` with
comparator `a.start - b.start` is a stable ascending sort, modelled by
stable `mergeSort`), then take the last start not exceeding now. -/
def fallbackPass (items : List Item) (nowMinutes : Nat) : Option Found :=
  match scanCand ((startsOf items).mergeSort (fun a b => a.2 ≤ b.2))
      nowMinutes none with
  | some p => some ⟨p.1, p.2, none⟩
  | none => none

/-- Range pass first, fallback pass only when it found nothing. -/
def resolveItems (items : List Item) (nowMinutes : Nat) : Option Found :=
  match rangePass items nowMinutes with
  | some f => some f
  | none => fallbackPass items nowMinutes

/-- Embeds `String(n).padStart(2, '0')`. -/
def padStart2 (s : String) : String :=
  if s.length ≥ 2 then s else if s.length = 1 then "0" ++ s else "00"

/-- Embeds `fmt` from `script.js` on a number argument:
`mins = (mins + 24*60) % (24*60)` with the JS remainder (sign of the
dividend, `Int.tmod`), `h = Math.floor(mins/60)` (floor division,
`Int.fdiv`), `m = mins % 60`, both rendered with `String` and
`padStart(2,'0')`. -/
def fmt (mins : Int) : String :=
  let t : Int := Int.tmod (mins + 24 * 60) (24 * 60)
  let h : Int := Int.fdiv t 60
  let m : Int := Int.tmod t 60
  padStart2 (toString h) ++ ":" ++ padStart2 (toString m)

/-- The replacement table of `escapeHtml`; characters outside the class
`[&<>"']` are kept. -/
def escapeChar (c : Char) : String :=
  if c = '&' then "&amp;"
  else if c = '<' then "&lt;"
  else if c = '>' then "&gt;"
  else if c = '"' then "&quot;"
  else if c = Char.ofNat 39 then "&#39;"
  else String.singleton c

/-- Embeds `escapeHtml`: global replacement of `[&<>"']` by entities. -/
def escapeHtml (s : String) : String :=
  String.join (s.data.map escapeChar)

/-- Embeds `escapeHtml(found.title || 'Onbekend programma')`. -/
def safeTitle (f : Found) : String :=
  escapeHtml (if f.title = "" then "Onbekend programma" else f.title)

/-- The `timeStr` ternary
`(found.start && found.end) ? fmt(start) + ' – ' + fmt(end)
 : (found.start ? fmt(start) + ' →' : '')` with JS truthiness: the
number 0 and `null` are falsy, so the first branch needs start ≠ 0 and
an end that is present and ≠ 0, the second needs start ≠ 0. -/
def timeStr (f : Found) : String :=
  match f.stop with
  | some e =>
    if f.start ≠ 0 ∧ e ≠ 0 then fmt f.start ++ " – " ++ fmt e
    else if f.start ≠ 0 then fmt f.start ++ " →" else ""
  | none => if f.start ≠ 0 then fmt f.start ++ " →" else ""

def htmlPre : String :=
  "\n      <div style=\"display:flex;align-items:center;gap:12px;\">\n        <div style=\"width:56px;height:56px;border-radius:10px;background:linear-gradient(135deg,#f0fbff,#e6f7ff);display:flex;align-items:center;justify-content:center;font-weight:800;color:var(--accent-2);\">\n          ▶\n        </div>\n        <div style=\"flex:1;\">\n          <div style=\"font-weight:800;font-size:1rem;\">Nu: "

def htmlMid : String :=
  "</div>\n          <div class=\"muted\" style=\"font-size:.92rem;margin-top:4px;\">"

def htmlPost : String :=
  "</div>\n        </div>\n      </div>\n    "

/-- The output html template with `safeTitle` and `timeStr`
interpolated. -/
def buildHtml (f : Found) : String :=
  htmlPre ++ safeTitle f ++ htmlMid ++ timeStr f ++ htmlPost

/-- The record `\x7b html, found \x7d` as returned to the caller. -/
structure ResolutionResult where
  html : String
  found : Bool
deriving Repr, DecidableEq

/-- The canned markup `<div class="muted">Geen programma nu</div>`. -/
def cannedHtml : String := "<div class=\"muted\">Geen programma nu</div>"

/-- A schedule-day element: its `data-day` attribute, its `id`, and the
program items extracted from it. The empty string models a missing or
empty attribute (both falsy in JS). -/
structure DayNode where
  dataDay : String
  id : String
  items : List Item
deriving Repr, DecidableEq

/-- Embeds `.toLowerCase()` character by character (the weekday keys are
ASCII). -/
def toLowerStr (s : String) : String :=
  String.mk (s.data.map Char.toLower)

/-- Embeds `(n.dataset && n.dataset.day) ? n.dataset.day.toLowerCase() :
(n.id ? n.id.toLowerCase() : null)`. -/
def nodeKey (n : DayNode) : Option String :=
  if n.dataDay ≠ "" then some (toLowerStr n.dataDay)
  else if n.id ≠ "" then some (toLowerStr n.id) else none

/-- Lookup in the map built by `nodes.forEach(n => ... map[key] = n)`:
a later assignment to the same key overwrites an earlier one, so the
lookup yields the last node carrying the key. -/
def lookupDay (nodes : List DayNode) (k : String) : Option DayNode :=
  (nodes.filter (fun n => nodeKey n = some k)).getLast?

/-- The table `['zondag','maandag','dinsdag','woensdag','donderdag','vrijdag','zaterdag']`. -/
def daysMap : List String :=
  ["zondag", "maandag", "dinsdag", "woensdag", "donderdag", "vrijdag",
   "zaterdag"]

/-- Embeds `computeNowFromScheduleDOM`, with the reference instant abstracted
into today's weekday key (`daysMap[now.getDay()]`) and
`nowMinutes = now.getHours()*60 + now.getMinutes()`. Total: every path
returns a `ResolutionResult`, no exception escapes. -/
def computeNow (nodes : List DayNode) (dayKey : String)
    (nowMinutes : Nat) : ResolutionResult :=
  match lookupDay nodes dayKey with
  | none => ⟨cannedHtml, false⟩
  | some node =>
    match resolveItems node.items nowMinutes with
    | none => ⟨cannedHtml, false⟩
    | some f => ⟨buildHtml f, true⟩

/-- Embeds `loadCurrentProgramFromPrograma`: local schedule-day nodes when
present; otherwise one fetch of `programma.html`, whose failure (network
error, bad status, parse yielding no nodes) is caught and turned into
the canned not-found result. -/
def loadCurrentProgram (localNodes : List DayNode)
    (fetched : Except String (List DayNode)) (dayKey : String)
    (nowMinutes : Nat) : ResolutionResult :=
  if localNodes.isEmpty then
    match fetched with
    | Except.error _ => ⟨cannedHtml, false⟩
    | Except.ok remoteNodes =>
      if remoteNodes.isEmpty then ⟨cannedHtml, false⟩
      else computeNow remoteNodes dayKey nowMinutes
  else computeNow localNodes dayKey nowMinutes

/-! ### Derived notions used by the theorems -/

/-- The range-pass condition for one entry: its time text matches the
range regex and the parsed interval contains `now` (half-open, wrapping
when start > end). -/
def rangeHit (now : Nat) (it : Item) : Bool :=
  match parseRangeMinutes it.timeText with
  | some (s, e) =>
    if s ≤ e then decide (now ≥ s ∧ now < e)
    else decide (now ≥ s ∨ now < e)
  | none => false

/-- The record the range pass would build from an entry. -/
def rangeFound (it : Item) : Option Found :=
  match parseRangeMinutes it.timeText with
  | some (s, e) => some ⟨orOnbekend it.titleText, s, some e⟩
  | none => none

theorem rangePass_cons_hit (it : Item) (rest : List Item) (now : Nat)
    (h : rangeHit now it = true) :
    rangePass (it :: rest) now = rangeFound it := by
  simp only [rangeHit] at h
  simp only [rangePass, rangeFound]
  cases hp : parseRangeMinutes it.timeText with
  | none => simp [hp] at h
  | some se =>
    obtain ⟨s, e⟩ := se
    simp only [hp] at h ⊢
    by_cases hse : s ≤ e
    · simp only [if_pos hse] at h ⊢
      simp only [decide_eq_true_eq] at h
      rw [if_pos h]
    · simp only [if_neg hse] at h ⊢
      simp only [decide_eq_true_eq] at h
      rw [if_pos h]

theorem rangePass_cons_miss (it : Item) (rest : List Item) (now : Nat)
    (h : rangeHit now it = false) :
    rangePass (it :: rest) now = rangePass rest now := by
  simp only [rangeHit] at h
  simp only [rangePass]
  cases hp : parseRangeMinutes it.timeText with
  | none => simp [hp]
  | some se =>
    obtain ⟨s, e⟩ := se
    simp only [hp] at h ⊢
    by_cases hse : s ≤ e
    · simp only [if_pos hse] at h ⊢
      simp only [decide_eq_false_iff_not] at h
      rw [if_neg h]
    · simp only [if_neg hse] at h ⊢
      simp only [decide_eq_false_iff_not] at h
      rw [if_neg h]

theorem rangeFound_isSome_of_hit (it : Item) (now : Nat)
    (h : rangeHit now it = true) : ∃ f, rangeFound it = some f := by
  simp only [rangeHit] at h
  simp only [rangeFound]
  cases hp : parseRangeMinutes it.timeText with
  | none => simp [hp] at h
  | some se =>
    obtain ⟨s, e⟩ := se
    simp only [hp]
    exact ⟨_, rfl⟩

/-! ### Claims -/

/-- C1: for an entry whose time text parses as a non-wrapping range
`s ≤ e`, the range pass selects it at reference time `now` exactly when
`s ≤ now < e`; otherwise the scan continues with the remaining entries.
In particular `now = s` matches and `now = e` does not. -/
theorem C1_nonwrapping_range (it : Item) (rest : List Item)
    (now s e : Nat) (hp : parseRangeMinutes it.timeText = some (s, e))
    (hse : s ≤ e) :
    rangePass (it :: rest) now =
      if s ≤ now ∧ now < e then some ⟨orOnbekend it.titleText, s, some e⟩
      else rangePass rest now := by
  simp only [rangePass, hp, ge_iff_le]
  rw [if_pos hse]

/-- Witness for C1: `"08:00 - 09:00"` is selected at 08:00 (480) and not
at 09:00 (540). -/
theorem C1_witness :
    rangePass [Item.mk "08:00 - 09:00" "Show"] 480 =
      some ⟨"Show", 480, some 540⟩ ∧
    rangePass [Item.mk "08:00 - 09:00" "Show"] 540 = none := by
  constructor
  · rw [C1_nonwrapping_range (Item.mk "08:00 - 09:00" "Show") [] 480
      480 540 (by decide) (by decide)]
    decide
  · rw [C1_nonwrapping_range (Item.mk "08:00 - 09:00" "Show") [] 540
      480 540 (by decide) (by decide)]
    decide

/-- C2: for an entry whose time text parses as a wrapping range
(start > end, crossing midnight), the range pass selects it at `now`
exactly when `now ≥ s` or `now < e`; otherwise the scan continues. -/
theorem C2_wrapping_range (it : Item) (rest : List Item)
    (now s e : Nat) (hp : parseRangeMinutes it.timeText = some (s, e))
    (hes : e < s) :
    rangePass (it :: rest) now =
      if s ≤ now ∨ now < e then some ⟨orOnbekend it.titleText, s, some e⟩
      else rangePass rest now := by
  simp only [rangePass, hp, ge_iff_le]
  rw [if_neg (by omega)]

/-- Witness for C2: `"23:00 - 01:00"` (s = 1380, e = 60) is selected at
23:20 (1400) and at 00:30 (30), not at 08:20 (500). -/
theorem C2_witness :
    rangePass [Item.mk "23:00 - 01:00" "Nacht"] 1400 =
      some ⟨"Nacht", 1380, some 60⟩ ∧
    rangePass [Item.mk "23:00 - 01:00" "Nacht"] 30 =
      some ⟨"Nacht", 1380, some 60⟩ ∧
    rangePass [Item.mk "23:00 - 01:00" "Nacht"] 500 = none := by
  refine ⟨?_, ?_, ?_⟩
  · rw [C2_wrapping_range (Item.mk "23:00 - 01:00" "Nacht") [] 1400
      1380 60 (by decide) (by decide)]
    decide
  · rw [C2_wrapping_range (Item.mk "23:00 - 01:00" "Nacht") [] 30
      1380 60 (by decide) (by decide)]
    decide
  · rw [C2_wrapping_range (Item.mk "23:00 - 01:00" "Nacht") [] 500
      1380 60 (by decide) (by decide)]
    decide

/-- C3: when the entries before `it` all fail the range condition and
`it` satisfies it, the range pass returns `it`'s record whatever follows
— the first match in list order wins and later entries are never
examined. -/
theorem C3_first_match_wins (pre post : List Item) (it : Item)
    (now : Nat) (hpre : ∀ j ∈ pre, rangeHit now j = false)
    (hit : rangeHit now it = true) :
    rangePass (pre ++ it :: post) now = rangeFound it ∧
    ∃ f, rangeFound it = some f := by
  refine ⟨?_, rangeFound_isSome_of_hit it now hit⟩
  induction pre with
  | nil => simpa using rangePass_cons_hit it post now hit
  | cons j pre ih =>
    rw [List.cons_append,
      rangePass_cons_miss j (pre ++ it :: post) now
        (hpre j (List.mem_cons_self j pre))]
    exact ih (fun j hj => hpre j (List.mem_cons_of_mem _ hj))

/-- Witness for C3: at 09:30 (570), with an overlapping third entry, the
second entry (the first whose range contains 570) is returned. -/
theorem C3_witness :
    rangePass [Item.mk "06:00-07:00" "A", Item.mk "08:00-12:00" "B",
      Item.mk "09:00-10:00" "C"] 570 = some ⟨"B", 480, some 720⟩ := by
  have h := C3_first_match_wins [Item.mk "06:00-07:00" "A"]
    [Item.mk "09:00-10:00" "C"] (Item.mk "08:00-12:00" "B") 570
    (by decide) (by decide)
  rw [show ([Item.mk "06:00-07:00" "A"] ++
      [Item.mk "08:00-12:00" "B", Item.mk "09:00-10:00" "C"]) =
      [Item.mk "06:00-07:00" "A", Item.mk "08:00-12:00" "B",
        Item.mk "09:00-10:00" "C"] from rfl] at h
  rw [h.1]
  decide

/-! ### Fallback pass: scan and sort lemmas -/

theorem scanCand_eq_acc_or_mem (l : List (String × Nat)) (now : Nat) :
    ∀ acc p, scanCand l now acc = some p →
      acc = some p ∨ (p ∈ l ∧ p.2 ≤ now) := by
  induction l with
  | nil => intro acc p h; exact Or.inl h
  | cons a l ih =>
    intro acc p h
    simp only [scanCand] at h
    by_cases hc : a.2 ≤ now
    · rw [if_pos hc] at h
      rcases ih (some a) p h with heq | ⟨hp, hpn⟩
      · cases heq
        exact Or.inr ⟨List.mem_cons_self a l, hc⟩
      · exact Or.inr ⟨List.mem_cons_of_mem a hp, hpn⟩
    · rw [if_neg hc] at h
      exact Or.inl h

theorem scanCand_some_of_acc (l : List (String × Nat)) (now : Nat) :
    ∀ q, ∃ p, scanCand l now (some q) = some p := by
  induction l with
  | nil => intro q; exact ⟨q, rfl⟩
  | cons a l ih =>
    intro q
    simp only [scanCand]
    by_cases hc : a.2 ≤ now
    · rw [if_pos hc]; exact ih a
    · rw [if_neg hc]; exact ⟨q, rfl⟩

theorem scanCand_ge (l : List (String × Nat)) (now : Nat)
    (hsort : l.Pairwise (fun a b => a.2 ≤ b.2)) :
    ∀ acc p q, scanCand l now acc = some p → q ∈ l → q.2 ≤ now →
      q.2 ≤ p.2 := by
  induction l with
  | nil => intro acc p q _ hq; exact absurd hq (List.not_mem_nil q)
  | cons a l ih =>
    rw [List.pairwise_cons] at hsort
    obtain ⟨ha, hl⟩ := hsort
    intro acc p q h hq hqn
    simp only [scanCand] at h
    by_cases hc : a.2 ≤ now
    · rw [if_pos hc] at h
      rcases List.mem_cons.mp hq with hqa | hq'
      · rcases scanCand_eq_acc_or_mem l now (some a) p h with heq | ⟨hp, _⟩
        · cases heq; rw [hqa]
        · rw [hqa]; exact ha p hp
      · exact ih hl (some a) p q h hq' hqn
    · rw [if_neg hc] at h
      rcases List.mem_cons.mp hq with hqa | hq'
      · rw [hqa] at hqn; exact absurd hqn hc
      · exact absurd (Nat.le_trans (ha q hq') hqn) hc

theorem scanCand_none_of_late (l : List (String × Nat)) (now : Nat)
    (h : ∀ q ∈ l, now < q.2) : scanCand l now none = none := by
  cases l with
  | nil => rfl
  | cons a l =>
    simp only [scanCand]
    rw [if_neg (Nat.not_le.mpr (h a (List.mem_cons_self a l)))]

theorem scanCand_isSome_of_exists (l : List (String × Nat)) (now : Nat)
    (hsort : l.Pairwise (fun a b => a.2 ≤ b.2))
    (h : ∃ q ∈ l, q.2 ≤ now) : ∃ p, scanCand l now none = some p := by
  cases l with
  | nil =>
    obtain ⟨q, hq, _⟩ := h
    exact absurd hq (List.not_mem_nil q)
  | cons a l =>
    simp only [scanCand]
    by_cases hc : a.2 ≤ now
    · rw [if_pos hc]; exact scanCand_some_of_acc l now a
    · rw [if_neg hc]
      rw [List.pairwise_cons] at hsort
      obtain ⟨q, hq, hqn⟩ := h
      rcases List.mem_cons.mp hq with hqa | hq'
      · rw [hqa] at hqn; exact absurd hqn hc
      · exact absurd (Nat.le_trans (hsort.1 q hq') hqn) hc

theorem sortedStarts_pairwise (l : List (String × Nat)) :
    (l.mergeSort (fun a b => a.2 ≤ b.2)).Pairwise
      (fun a b : String × Nat => a.2 ≤ b.2) := by
  have h := @List.sorted_mergeSort (String × Nat)
    (fun a b => a.2 ≤ b.2)
    (fun a b c h1 h2 => by
      simp only [decide_eq_true_eq] at h1 h2 ⊢
      exact Nat.le_trans h1 h2)
    (fun a b => by
      simp only [Bool.or_eq_true, decide_eq_true_eq]
      exact Nat.le_total a.2 b.2) l
  exact h.imp (fun hab => of_decide_eq_true hab)

theorem startsOf_mem (items : List Item) (p : String × Nat)
    (h : p ∈ startsOf items) :
    ∃ it ∈ items, toMinutes it.timeText = some p.2 := by
  simp only [startsOf, List.mem_filterMap] at h
  obtain ⟨it, hit, hmap⟩ := h
  refine ⟨it, hit, ?_⟩
  cases hm : toMinutes it.timeText with
  | none => rw [hm] at hmap; exact absurd hmap (by simp)
  | some v =>
    rw [hm] at hmap
    cases hmap
    rfl

theorem fallback_some_spec (items : List Item) (now : Nat) (f : Found)
    (hf : fallbackPass items now = some f) :
    f.stop = none ∧ f.start ≤ now ∧
    (f.title, f.start) ∈ startsOf items ∧
    ∀ p ∈ startsOf items, p.2 ≤ now → p.2 ≤ f.start := by
  simp only [fallbackPass] at hf
  cases hs : scanCand ((startsOf items).mergeSort fun a b => a.2 ≤ b.2)
      now none with
  | none => rw [hs] at hf; exact absurd hf (by simp)
  | some p =>
    rw [hs] at hf
    cases hf
    rcases scanCand_eq_acc_or_mem _ now none p hs with heq | ⟨hp, hpn⟩
    · exact absurd heq (by simp)
    · refine ⟨rfl, hpn, ?_, ?_⟩
      · show (p.1, p.2) ∈ startsOf items
        rw [Prod.mk.eta]
        exact List.mem_mergeSort.mp hp
      · intro q hq hqn
        exact scanCand_ge _ now (sortedStarts_pairwise _) none p q hs
          (List.mem_mergeSort.mpr hq) hqn

theorem fallback_none_of_late (items : List Item) (now : Nat)
    (h : ∀ p ∈ startsOf items, now < p.2) :
    fallbackPass items now = none := by
  simp only [fallbackPass]
  rw [scanCand_none_of_late _ now
    (fun q hq => h q (List.mem_mergeSort.mp hq))]

theorem fallback_isSome_of_exists (items : List Item) (now : Nat)
    (h : ∃ p ∈ startsOf items, p.2 ≤ now) :
    ∃ f, fallbackPass items now = some f := by
  simp only [fallbackPass]
  obtain ⟨p, hp⟩ := scanCand_isSome_of_exists _ now
    (sortedStarts_pairwise _)
    (by
      obtain ⟨q, hq, hqn⟩ := h
      exact ⟨q, List.mem_mergeSort.mpr hq, hqn⟩)
  rw [hp]
  exact ⟨_, rfl⟩

/-- The fallback result on starts 09:00, 08:00, 10:00 (document order)
at 09:30: the 09:00 entry, derived from the characterization lemmas
(the greatest start not exceeding 570 among 540, 480, 600 is 540). -/
theorem fallback_ex :
    fallbackPass [Item.mk "09:00" "A", Item.mk "08:00" "B",
      Item.mk "10:00" "C"] 570 = some ⟨"A", 540, none⟩ := by
  obtain ⟨f, hf⟩ := fallback_isSome_of_exists
    [Item.mk "09:00" "A", Item.mk "08:00" "B", Item.mk "10:00" "C"] 570
    ⟨("A", 540), by decide, by decide⟩
  obtain ⟨h1, h2, h3, h4⟩ := fallback_some_spec _ 570 f hf
  have hs : startsOf [Item.mk "09:00" "A", Item.mk "08:00" "B",
      Item.mk "10:00" "C"] = [("A", 540), ("B", 480), ("C", 600)] := by
    decide
  rw [hs] at h3 h4
  have h540 : (540 : Nat) ≤ f.start :=
    h4 ("A", 540) (List.mem_cons_self _ _) (by decide)
  rw [hf]
  simp only [List.mem_cons, List.not_mem_nil, or_false] at h3
  rcases h3 with h | h | h
  · have ht : f.title = "A" := congrArg Prod.fst h
    have hst : f.start = 540 := congrArg Prod.snd h
    cases f
    simp_all
  · have hst : f.start = 480 := congrArg Prod.snd h
    rw [hst] at h540
    exact absurd h540 (by decide)
  · have hst : f.start = 600 := congrArg Prod.snd h
    rw [hst] at h2
    exact absurd h2 (by decide)

/-- C4: with no range match, the fallback pass returns a record with no
end time whose start is the greatest parseable start not exceeding
`nowMinutes`, independently of document order; when every parseable
start exceeds `nowMinutes`, or none parses, it returns nothing; and on
starts 09:00, 08:00, 10:00 (document order) at 09:30 it selects the
09:00 entry. -/
theorem C4_fallback_last_started (items : List Item) (now : Nat) :
    (∀ f, fallbackPass items now = some f →
      f.stop = none ∧ f.start ≤ now ∧
      (f.title, f.start) ∈ startsOf items ∧
      ∀ p ∈ startsOf items, p.2 ≤ now → p.2 ≤ f.start) ∧
    ((∀ p ∈ startsOf items, now < p.2) → fallbackPass items now = none) ∧
    ((∃ p ∈ startsOf items, p.2 ≤ now) →
      ∃ f, fallbackPass items now = some f) ∧
    fallbackPass [Item.mk "09:00" "A", Item.mk "08:00" "B",
      Item.mk "10:00" "C"] 570 = some ⟨"A", 540, none⟩ :=
  ⟨fun f hf => fallback_some_spec items now f hf,
   fallback_none_of_late items now,
   fallback_isSome_of_exists items now,
   fallback_ex⟩

/-- Witness for C4: the out-of-order example returns the 09:00 entry,
and a single future start at 09:00 gives no result at 06:40 (400). -/
theorem C4_witness :
    fallbackPass [Item.mk "09:00" "A", Item.mk "08:00" "B",
      Item.mk "10:00" "C"] 570 = some ⟨"A", 540, none⟩ ∧
    fallbackPass [Item.mk "09:00" "A"] 400 = none := by
  constructor
  · exact (C4_fallback_last_started [] 0).2.2.2
  · exact (C4_fallback_last_started [Item.mk "09:00" "A"] 400).2.1
      (by decide)

/-! ### Error convergence -/

theorem fallbackPass_nil (now : Nat) : fallbackPass [] now = none := by
  simp only [fallbackPass, startsOf, List.filterMap_nil,
    List.mergeSort_nil]
  rfl

theorem resolveItems_nil (now : Nat) : resolveItems [] now = none := by
  simp only [resolveItems, rangePass, fallbackPass_nil]

/-- C5: the three failure kinds — today's day-section missing (or
present with zero entries), fetch failure or a fetched document without
day-sections, and no entry matched by either pass — all produce the
same result: `found = false` with the canned "Geen programma nu" html.
(That no error escapes to the caller is modelled by totality: every
function here returns a `ResolutionResult` on every input.) -/
theorem C5_errors_converge (nodes : List DayNode) (k : String)
    (now : Nat) (msg : String) :
    (lookupDay nodes k = none →
      computeNow nodes k now = ⟨cannedHtml, false⟩) ∧
    (∀ n, lookupDay nodes k = some n → n.items = [] →
      computeNow nodes k now = ⟨cannedHtml, false⟩) ∧
    (∀ n, lookupDay nodes k = some n → resolveItems n.items now = none →
      computeNow nodes k now = ⟨cannedHtml, false⟩) ∧
    loadCurrentProgram [] (Except.error msg) k now =
      ⟨cannedHtml, false⟩ ∧
    loadCurrentProgram [] (Except.ok []) k now = ⟨cannedHtml, false⟩ := by
  refine ⟨?_, ?_, ?_, rfl, rfl⟩
  · intro h
    simp only [computeNow, h]
  · intro n hn hitems
    simp only [computeNow, hn, hitems, resolveItems_nil]
  · intro n hn hres
    simp only [computeNow, hn, hres]

/-- Witness for C5: a Monday-only schedule on a Tuesday, an empty Monday
section on Monday, and a failed fetch all give the canned result. -/
theorem C5_witness :
    computeNow [DayNode.mk "maandag" "" [Item.mk "08:00" "A"]]
      "dinsdag" 600 = ⟨cannedHtml, false⟩ ∧
    computeNow [DayNode.mk "maandag" "" []] "maandag" 600 =
      ⟨cannedHtml, false⟩ ∧
    loadCurrentProgram [] (Except.error "Fetch failed: 404") "maandag"
      600 = ⟨cannedHtml, false⟩ := by
  refine ⟨?_, ?_, ?_⟩
  · exact (C5_errors_converge [DayNode.mk "maandag" ""
      [Item.mk "08:00" "A"]] "dinsdag" 600 "x").1 (by decide)
  · exact (C5_errors_converge [DayNode.mk "maandag" "" []] "maandag"
      600 "x").2.1 (DayNode.mk "maandag" "" []) (by decide) rfl
  · exact (C5_errors_converge [] "maandag" 600
      "Fetch failed: 404").2.2.2.1

/-! ### Rendering -/

/-- C6 (code bug): the time-label ternary tests the minute numbers for
JS truthiness, so the value 0 (midnight) is treated like an absent
time. A program resolved as 00:00-01:00 renders with an empty time
label although its start exists, and a program ending at 00:00 loses
its end ("23:00 →" instead of "23:00 – 00:00"), while `fmt` itself
formats 0 as "00:00". -/
theorem C6_midnight_label_dropped :
    resolveItems [Item.mk "00:00 - 01:00" "Nacht"] 30 =
      some ⟨"Nacht", 0, some 60⟩ ∧
    timeStr ⟨"Nacht", 0, some 60⟩ = "" ∧
    buildHtml ⟨"Nacht", 0, some 60⟩ =
      htmlPre ++ "Nacht" ++ htmlMid ++ "" ++ htmlPost ∧
    timeStr ⟨"Avond", 1380, some 0⟩ = "23:00 →" ∧
    fmt 0 = "00:00" := by
  refine ⟨by decide, by decide, ?_, by decide, by decide⟩
  have ht : timeStr ⟨"Nacht", 0, some 60⟩ = "" := by decide
  have hs : safeTitle ⟨"Nacht", 0, some 60⟩ = "Nacht" := by decide
  simp only [buildHtml, ht, hs]

/-- C7 counterexample: `fmt` adds 24*60 only once before the JS `%`
(which keeps the sign of the dividend), so an input below -1440 is not
normalized into [0, 1440): `fmt(-1500)` is `"-1:00"`, not the `"23:00"`
that reducing -1500 modulo 1440 would give. -/
theorem C7_counterexample :
    fmt (-1500) = "-1:00" ∧ ((-1500 : Int) % 1440 = 1380) ∧
    fmt ((-1500 : Int) % 1440) = "23:00" ∧
    fmt (-1500) ≠ fmt ((-1500 : Int) % 1440) := by decide

theorem fmt_eq_of_tmod_eq (a b : Int)
    (h : Int.tmod (a + 24 * 60) (24 * 60) =
      Int.tmod (b + 24 * 60) (24 * 60)) : fmt a = fmt b := by
  simp only [fmt, h]

/-- C7 (amended): for every input not below -1440, `fmt` normalizes
modulo 1440 into [0, 1440) before zero-padded formatting — in
particular `fmt(-30) = "23:30"`, `fmt(1440) = "00:00"`,
`fmt(75) = "01:15"` — but inputs below -1440 are left unnormalized
(see the counterexample). -/
theorem C7_fmt_normalizes (m : Int) (h : -1440 ≤ m) :
    fmt m = fmt (m % 1440) ∧ 0 ≤ m % 1440 ∧ m % 1440 < 1440 ∧
    fmt (-30) = "23:30" ∧ fmt 1440 = "00:00" ∧ fmt 75 = "01:15" := by
  refine ⟨?_, Int.emod_nonneg m (by decide),
    Int.emod_lt_of_pos m (by decide), by decide, by decide, by decide⟩
  apply fmt_eq_of_tmod_eq
  have h1 : (0 : Int) ≤ m + 24 * 60 := by omega
  have h2 : (0 : Int) ≤ m % 1440 + 24 * 60 := by
    have := Int.emod_nonneg m (show (1440 : Int) ≠ 0 by decide)
    omega
  rw [Int.tmod_eq_emod h1 (by decide), Int.tmod_eq_emod h2 (by decide)]
  show (m + 1440) % 1440 = (m % 1440 + 1440) % 1440
  omega

/-- Witness for C7 (amended) at m = -30. -/
theorem C7_witness :
    fmt (-30) = fmt ((-30 : Int) % 1440) ∧ 0 ≤ (-30 : Int) % 1440 ∧
    ((-30 : Int) % 1440 < 1440) ∧ fmt (-30) = "23:30" :=
  ⟨(C7_fmt_normalizes (-30) (by decide)).1,
   (C7_fmt_normalizes (-30) (by decide)).2.1,
   (C7_fmt_normalizes (-30) (by decide)).2.2.1,
   (C7_fmt_normalizes (-30) (by decide)).2.2.2.1⟩

/-! ### Parser bounds -/

theorem digitVal_le_nine (c : Char) (h : isDigitChar c = true) :
    digitVal c ≤ 9 := by
  simp only [isDigitChar, decide_eq_true_eq] at h
  simp only [digitVal]
  omega

theorem matchHM1_bound (d1 : Char) (cs : List Char)
    (hd : isDigitChar d1 = true) :
    ∀ h m rest, matchHM1 d1 cs = some (h, m, rest) →
      h ≤ 99 ∧ m ≤ 99 := by
  intro h m rest hm
  have hd9 := digitVal_le_nine d1 hd
  unfold matchHM1 at hm
  split at hm
  · split at hm
    · rename_i hdig
      have h1 := digitVal_le_nine _ hdig.1
      have h2 := digitVal_le_nine _ hdig.2
      cases hm
      omega
    · exact absurd hm (by simp)
  · exact absurd hm (by simp)

theorem matchHMAt_bound (cs : List Char) :
    ∀ h m rest, matchHMAt cs = some (h, m, rest) →
      h ≤ 99 ∧ m ≤ 99 := by
  intro h m rest hm
  cases cs with
  | nil => exact absurd hm (by simp [matchHMAt])
  | cons d1 rest1 =>
    simp only [matchHMAt] at hm
    split at hm
    · rename_i hd
      have hd9 := digitVal_le_nine d1 hd
      split at hm
      · split at hm
        · rename_i hdig
          have h1 := digitVal_le_nine _ hdig.1
          have h2 := digitVal_le_nine _ hdig.2.1
          have h3 := digitVal_le_nine _ hdig.2.2
          cases hm
          omega
        · exact matchHM1_bound d1 _ hd h m rest hm
      all_goals exact matchHM1_bound d1 _ hd h m rest hm
    · exact absurd hm (by simp)

theorem findHM_bound (cs : List Char) :
    ∀ h m, findHM cs = some (h, m) → h ≤ 99 ∧ m ≤ 99 := by
  induction cs with
  | nil => intro h m hm; exact absurd hm (by simp [findHM])
  | cons c rest ih =>
    intro h m hm
    unfold findHM at hm
    cases ha : matchHMAt (c :: rest) with
    | none => rw [ha] at hm; exact ih h m hm
    | some t =>
      obtain ⟨h1, m1, r1⟩ := t
      rw [ha] at hm
      cases hm
      exact matchHMAt_bound (c :: rest) h m r1 ha

theorem toMinutes_bound (t : String) (v : Nat)
    (hv : toMinutes t = some v) : v ≤ 6039 := by
  unfold toMinutes at hv
  cases hf : findHM t.data with
  | none => rw [hf] at hv; exact absurd hv (by simp)
  | some hm =>
    obtain ⟨h, m⟩ := hm
    rw [hf] at hv
    cases hv
    have := findHM_bound t.data h m hf
    omega

theorem matchRangeAt_bound (cs : List Char) (s e : Nat)
    (h : matchRangeAt cs = some (s, e)) : s ≤ 6039 ∧ e ≤ 6039 := by
  unfold matchRangeAt at h
  cases h1 : matchHMAt cs with
  | none => simp only [h1] at h; exact absurd h (by simp)
  | some t1 =>
    obtain ⟨h1v, m1v, rest⟩ := t1
    simp only [h1] at h
    cases hws : skipWs rest with
    | nil => simp only [hws] at h; exact absurd h (by simp)
    | cons d rest2 =>
      simp only [hws] at h
      split at h
      · cases h2 : matchHMAt (skipWs rest2) with
        | none => simp only [h2] at h; exact absurd h (by simp)
        | some t2 =>
          obtain ⟨h2v, m2v, rest3⟩ := t2
          simp only [h2] at h
          cases h
          have hb1 := matchHMAt_bound cs h1v m1v rest h1
          have hb2 := matchHMAt_bound (skipWs rest2) h2v m2v rest3 h2
          omega
      · exact absurd h (by simp)

theorem findRange_bound (cs : List Char) :
    ∀ s e, findRange cs = some (s, e) → s ≤ 6039 ∧ e ≤ 6039 := by
  induction cs with
  | nil => intro s e h; exact absurd h (by simp [findRange])
  | cons c rest ih =>
    intro s e h
    unfold findRange at h
    cases ha : matchRangeAt (c :: rest) with
    | none => rw [ha] at h; exact ih s e h
    | some r =>
      obtain ⟨s1, e1⟩ := r
      rw [ha] at h
      cases h
      exact matchRangeAt_bound (c :: rest) s e ha

theorem rangePass_bound (items : List Item) (now : Nat) (f : Found)
    (hf : rangePass items now = some f) :
    f.start ≤ 6039 ∧ ∃ e, f.stop = some e ∧ e ≤ 6039 := by
  induction items with
  | nil => exact absurd hf (by simp [rangePass])
  | cons it rest ih =>
    simp only [rangePass] at hf
    cases hp : parseRangeMinutes it.timeText with
    | none => rw [hp] at hf; exact ih hf
    | some se =>
      obtain ⟨s, e⟩ := se
      simp only [hp] at hf
      have hb := findRange_bound it.timeText.data s e hp
      by_cases hse : s ≤ e
      · rw [if_pos hse] at hf
        by_cases hin : now ≥ s ∧ now < e
        · rw [if_pos hin] at hf
          cases hf
          exact ⟨hb.1, e, rfl, hb.2⟩
        · rw [if_neg hin] at hf
          exact ih hf
      · rw [if_neg hse] at hf
        by_cases hin : now ≥ s ∨ now < e
        · rw [if_pos hin] at hf
          cases hf
          exact ⟨hb.1, e, rfl, hb.2⟩
        · rw [if_neg hin] at hf
          exact ih hf

/-- C8 counterexample: the HH:MM parser accepts "25:99" and yields
25*60+99 = 1599 without normalization; through a wrapping range this
becomes the `start` field of a resolved program, so resolver minute
values are not always in [0, 1440). -/
theorem C8_counterexample :
    toMinutes "25:99" = some 1599 ∧
    resolveItems [Item.mk "25:99 - 01:00" "X"] 30 =
      some ⟨"X", 1599, some 60⟩ ∧
    ¬(1599 < 1440) := by decide

/-- C8 (amended): resolver minute values are only bounded by the parser
shape — at most 99*60+99 = 6039 for range starts and ends — while
fallback results (end absent) do lie below 1440 whenever the reference
`nowMinutes` does, and `nowMinutes = hours*60 + minutes` itself is
always below 1440. -/
theorem C8_minute_bounds (items : List Item) (now : Nat) (f : Found)
    (hnow : now < 1440) (hf : resolveItems items now = some f) :
    f.start ≤ 6039 ∧ (∀ e, f.stop = some e → e ≤ 6039) ∧
    (f.stop = none → f.start < 1440) ∧
    ∀ hh mm : Nat, hh < 24 → mm < 60 → hh * 60 + mm < 1440 := by
  have hlast : ∀ hh mm : Nat, hh < 24 → mm < 60 → hh * 60 + mm < 1440 :=
    fun hh mm h1 h2 => by omega
  simp only [resolveItems] at hf
  cases hr : rangePass items now with
  | some g =>
    simp only [hr] at hf
    obtain ⟨hs, e, hstop, he⟩ := rangePass_bound items now g hr
    injection hf with hf2
    rw [← hf2]
    refine ⟨hs, ?_, ?_, hlast⟩
    · intro e2 he2
      rw [hstop] at he2
      cases he2
      exact he
    · intro hn
      rw [hstop] at hn
      exact absurd hn (by simp)
  | none =>
    simp only [hr] at hf
    obtain ⟨hstop, hle, hmem, _⟩ := fallback_some_spec items now f hf
    refine ⟨?_, ?_, fun _ => Nat.lt_of_le_of_lt hle hnow, hlast⟩
    · obtain ⟨it, _, hit⟩ := startsOf_mem items (f.title, f.start) hmem
      exact toMinutes_bound it.timeText f.start hit
    · intro e he
      rw [hstop] at he
      exact absurd he (by simp)

/-- Witness for C8 (amended) on a well-formed range entry. -/
theorem C8_witness :
    resolveItems [Item.mk "08:00 - 09:00" "A"] 500 =
      some ⟨"A", 480, some 540⟩ ∧
    (480 ≤ 6039 ∧
      (∀ e, (some 540 : Option Nat) = some e → e ≤ 6039) ∧
      ((some 540 : Option Nat) = none → 480 < 1440) ∧
      ∀ hh mm : Nat, hh < 24 → mm < 60 → hh * 60 + mm < 1440) :=
  ⟨by decide,
   C8_minute_bounds [Item.mk "08:00 - 09:00" "A"] 500
     ⟨"A", 480, some 540⟩ (by decide) (by decide)⟩

/-! ### Escaping and day-section selection -/

/-- C9: the render payload interpolates the resolved title only through
`escapeHtml`, which maps each of the five characters of the class
`[&<>"']` to its entity and keeps every other character; in particular
`<script>` appears as `&lt;script&gt;`. -/
theorem C9_title_escaped (f : Found) (h : f.title ≠ "") :
    (∃ pre post, buildHtml f =
      pre ++ String.join (f.title.data.map escapeChar) ++ post) ∧
    (∀ c : Char, escapeChar c =
      if c = '&' then "&amp;" else if c = '<' then "&lt;"
      else if c = '>' then "&gt;" else if c = '"' then "&quot;"
      else if c = Char.ofNat 39 then "&#39;"
      else String.singleton c) ∧
    escapeHtml "<script>" = "&lt;script&gt;" := by
  refine ⟨⟨htmlPre, htmlMid ++ timeStr f ++ htmlPost, ?_⟩,
    fun c => rfl, by decide⟩
  simp only [buildHtml, safeTitle, escapeHtml, if_neg h]
  simp [String.append_assoc]

/-- Witness for C9 on a title containing markup. -/
theorem C9_witness :
    (∃ pre post, buildHtml ⟨"x<y", 540, some 600⟩ =
      pre ++ String.join (("x<y" : String).data.map escapeChar) ++
        post) ∧
    escapeHtml "<script>" = "&lt;script&gt;" :=
  ⟨(C9_title_escaped ⟨"x<y", 540, some 600⟩ (by decide)).1,
   (C9_title_escaped ⟨"x<y", 540, some 600⟩ (by decide)).2.2⟩

/-- C10: when a day-section with today's key is followed only by
sections with other keys, resolution coincides with resolution on that
section alone: the `map[key] = n` loop lets the last section with a
key overwrite every earlier one, so earlier duplicates are never
examined. -/
theorem C10_last_section_wins (pre post : List DayNode) (n : DayNode)
    (k : String) (now : Nat) (hn : nodeKey n = some k)
    (hpost : ∀ m ∈ post, nodeKey m ≠ some k) :
    computeNow (pre ++ n :: post) k now = computeNow [n] k now := by
  have hfpost : List.filter (fun m => nodeKey m = some k) post = [] := by
    rw [List.filter_eq_nil_iff]
    intro a ha
    simp only [decide_eq_true_eq]
    exact hpost a ha
  have hl : lookupDay (pre ++ n :: post) k = some n := by
    simp only [lookupDay, List.filter_append, List.filter_cons,
      hfpost, if_pos (decide_eq_true hn)]
    exact List.getLast?_concat _
  have hl1 : lookupDay [n] k = some n := by
    simp only [lookupDay, List.filter_cons, List.filter_nil,
      if_pos (decide_eq_true hn)]
    rfl
  simp only [computeNow, hl, hl1]

/-- Witness for C10: two `maandag` sections; the second one's entry is
the one resolved, and it is found. -/
theorem C10_witness :
    computeNow [DayNode.mk "maandag" "" [Item.mk "08:00 - 23:00" "Oud"],
        DayNode.mk "maandag" "" [Item.mk "08:00 - 23:00" "Nieuw"]]
      "maandag" 600 =
      computeNow [DayNode.mk "maandag" "" [Item.mk "08:00 - 23:00"
        "Nieuw"]] "maandag" 600 ∧
    (computeNow [DayNode.mk "maandag" "" [Item.mk "08:00 - 23:00"
      "Nieuw"]] "maandag" 600).found = true := by
  constructor
  · exact C10_last_section_wins
      [DayNode.mk "maandag" "" [Item.mk "08:00 - 23:00" "Oud"]] []
      (DayNode.mk "maandag" "" [Item.mk "08:00 - 23:00" "Nieuw"])
      "maandag" 600 (by decide) (by decide)
  · decide

end RadioMNS
